import Mathlib

/-!
Verification of the foundit backtesting engine (`strategy.py`, `backtester.py`).

The strategy (`MAStrategy`) and the driver (`StockBacktester.run_backtest`,
`StockBacktester.run_market_backtest`) are shallowly embedded: prices and cash
are rationals, the per-bar callback `next` becomes an explicit step function on
an explicit strategy state, fills execute instantly at the bar close, and the
backtrader indicator objects (SMA, CrossOver, ATR, Highest) are recomputed
rolling functions over the bar list, following backtrader's documented
formulas (CrossOver via the last non-zero difference; ATR via Wilder's
smoothed moving average of the true range).
-/

namespace Foundit

/-- One OHLCV observation, as produced by `get_stock_data` (dates are
abstracted to naturals; within a valid series they are strictly increasing). -/
structure Bar where
  date : ℕ
  openPrice : ℚ
  high : ℚ
  low : ℚ
  close : ℚ
  volume : ℚ
deriving DecidableEq, Repr

instance : Inhabited Bar := ⟨⟨0, 0, 0, 0, 0, 0⟩⟩

/-- Strategy parameters, fixed at their defaults as in `MAStrategy.params`
(the drivers add the strategy without overriding any parameter). -/
def commission_rate : ℚ := 3 / 10000

def crossover_threshold : ℚ := 1 / 1000

def volume_ratio_threshold : ℚ := 3 / 2

def atr_loss_multiplier : ℚ := 2

def atr_profit_multiplier : ℚ := 3

def margin_ratio_param : ℚ := 95 / 100

def enable_trailing_stop : Bool := false

def closeAt (bars : List Bar) (i : ℕ) : ℚ := (bars.getD i default).close

def highAt (bars : List Bar) (i : ℕ) : ℚ := (bars.getD i default).high

def lowAt (bars : List Bar) (i : ℕ) : ℚ := (bars.getD i default).low

def volAt (bars : List Bar) (i : ℕ) : ℚ := (bars.getD i default).volume

def dateAt (bars : List Bar) (i : ℕ) : ℕ := (bars.getD i default).date

/-- Simple moving average of `f` over the `p` bars ending at index `i`
(backtrader `bt.indicators.SMA`). -/
def sma (p : ℕ) (f : ℕ → ℚ) (i : ℕ) : ℚ :=
  (((List.range p).map fun k => f (i - k)).sum) / p

/-- `self.fast_ma`: SMA of close, period 5. -/
def fastMA (bars : List Bar) (i : ℕ) : ℚ := sma 5 (closeAt bars) i

/-- `self.slow_ma`: SMA of close, period 20. -/
def slowMA (bars : List Bar) (i : ℕ) : ℚ := sma 20 (closeAt bars) i

def maDiff (bars : List Bar) (i : ℕ) : ℚ := fastMA bars i - slowMA bars i

/-- Last non-zero value of `fast_ma - slow_ma` up to index `i`
(backtrader `NonZeroDifference`, the building block of `CrossOver`). -/
def nzd (bars : List Bar) : ℕ → ℚ
  | 0 => maDiff bars 0
  | n + 1 => if maDiff bars (n + 1) = 0 then nzd bars n else maDiff bars (n + 1)

/-- `self.crossover = bt.indicators.CrossOver(fast_ma, slow_ma)`: `1` on the
bar where fast crosses above slow, `-1` on the bar where it crosses below,
`0` otherwise. -/
def crossoverInd (bars : List Bar) (i : ℕ) : ℚ :=
  (if nzd bars (i - 1) < 0 ∧ 0 < maDiff bars i then (1 : ℚ) else 0) -
    (if 0 < nzd bars (i - 1) ∧ maDiff bars i < 0 then (1 : ℚ) else 0)

/-- True range at index `i` (needs the previous close, so meaningful for
`1 ≤ i`). -/
def trueRange (bars : List Bar) (i : ℕ) : ℚ :=
  max (highAt bars i - lowAt bars i)
    (max |highAt bars i - closeAt bars (i - 1)| |lowAt bars i - closeAt bars (i - 1)|)

/-- Seed of Wilder's smoothing: plain average of the first 14 true ranges. -/
def atrSeed (bars : List Bar) : ℚ :=
  (((List.range 14).map fun k => trueRange bars (k + 1)).sum) / 14

/-- `self.atr = bt.indicators.ATR(period=14)`: Wilder-smoothed moving average
of the true range, seeded at index 14. -/
def atrInd (bars : List Bar) : ℕ → ℚ
  | 0 => atrSeed bars
  | n + 1 =>
    if n + 1 ≤ 14 then atrSeed bars
    else (atrInd bars n * 13 + trueRange bars (n + 1)) / 14

/-- `self.trailing_stop = bt.indicators.Highest(self.data.close, period=20)`. -/
def hh20 (bars : List Bar) (i : ℕ) : ℚ :=
  (List.range 20).foldl (fun m k => max m (closeAt bars (i - k))) (closeAt bars i)

/-- Python's `int()` applied to a rational: truncation toward zero. -/
def pyInt (q : ℚ) : ℤ := q.num.tdiv q.den

/-- `MAStrategy.calculate_trade_size`:
`int((cash * margin_ratio) / price / 100) * 100`. -/
def calculate_trade_size (cash price : ℚ) : ℤ :=
  pyInt (cash * margin_ratio_param / price / 100) * 100

inductive Side where
  | buy
  | sell
deriving DecidableEq, Repr

/-- Which rule produced the trade (`self.trade_reason` in the source holds a
human-readable string; the rule identity is what matters here). -/
inductive Reason where
  | goldenCross
  | deathCross
  | atrStopLoss
  | atrTakeProfit
  | trailingStop
deriving DecidableEq, Repr

/-- An entry of `self.trades`. -/
structure TradeRec where
  date : ℕ
  side : Side
  price : ℚ
  size : ℤ
  reason : Reason
deriving DecidableEq, Repr

/-- The mutable state of one backtest run: broker cash, position size, and
the strategy's own fields `entry_price`, `buy_dates`, `trades`. -/
structure StratState where
  cash : ℚ
  pos : ℤ
  entryPrice : ℚ
  buyDates : List ℕ
  trades : List TradeRec
deriving DecidableEq, Repr

def initState (c0 : ℚ) : StratState :=
  { cash := c0, pos := 0, entryPrice := 0, buyDates := [], trades := [] }

/-- Mean volume of the seven bars preceding `i`
(`sum([self.data.volume[-i] for i in range(1, 8)]) / 7`). -/
def prevVolMean (bars : List Bar) (i : ℕ) : ℚ :=
  (((List.range 7).map fun k => volAt bars (i - 1 - k)).sum) / 7

/-- Crossover magnitude: linear interpolation of the crossing point between
the fast and slow lines, `0` when the denominator vanishes. -/
def crossoverPct (f0 f1 s0 s1 : ℚ) : ℚ :=
  let den := (f0 - f1) - (s0 - s1)
  if den = 0 then 0
  else
    let alpha := (s1 - f1) / den
    let cp := f1 + alpha * (f0 - f1)
    |cp - s0| / s0

/-- The FLAT branch of `MAStrategy.next` (`if not self.position`), with the
fill applied instantly at the bar close and the broker commission deducted. -/
def flatStep (bars : List Bar) (i : ℕ) (st : StratState) : StratState :=
  if slowMA bars i < fastMA bars i ∧ fastMA bars (i - 1) ≤ slowMA bars (i - 1) then
    if crossover_threshold ≤ crossoverPct (fastMA bars i) (fastMA bars (i - 1))
          (slowMA bars i) (slowMA bars (i - 1)) ∧
        volume_ratio_threshold * prevVolMean bars i < volAt bars i ∧
        (volAt bars (i - 1) < volAt bars i ∧ volAt bars (i - 2) < volAt bars (i - 1)) ∧
        fastMA bars (i - 5) < fastMA bars i then
      if 100 ≤ calculate_trade_size st.cash (closeAt bars i) then
        { cash := st.cash - (calculate_trade_size st.cash (closeAt bars i) : ℚ) *
            closeAt bars i * (1 + commission_rate)
          pos := calculate_trade_size st.cash (closeAt bars i)
          entryPrice := closeAt bars i
          buyDates := dateAt bars i :: st.buyDates
          trades := st.trades ++
            [{ date := dateAt bars i, side := Side.buy, price := closeAt bars i,
               size := calculate_trade_size st.cash (closeAt bars i),
               reason := Reason.goldenCross }] }
      else st
    else st
  else st

/-- The exit decision of the LONG branch of `MAStrategy.next`: the
`if crossover < 0 / elif price < stop_loss / elif price > take_profit /
elif enable_trailing_stop and price < trailing_stop` cascade. -/
def exitSignal (price entry atr cross hh : ℚ) (trail : Bool) : Option Reason :=
  if cross < 0 then some Reason.deathCross
  else if price < entry - atr * atr_loss_multiplier then some Reason.atrStopLoss
  else if entry + atr * atr_profit_multiplier < price then some Reason.atrTakeProfit
  else if trail = true ∧ price < hh then some Reason.trailingStop
  else none

/-- `self.close()` with the fill applied instantly at the bar close: the whole
position is sold, commission deducted, and the trade recorded. -/
def sellFill (bars : List Bar) (i : ℕ) (st : StratState) (r : Reason) : StratState :=
  { st with
    cash := st.cash + (st.pos : ℚ) * closeAt bars i * (1 - commission_rate)
    pos := 0
    trades := st.trades ++
      [{ date := dateAt bars i, side := Side.sell, price := closeAt bars i,
         size := st.pos, reason := r }] }

/-- The LONG branch of `MAStrategy.next`: the T+1 check
(`if current_date in self.buy_dates: return`) followed by the exit cascade. -/
def longStep (bars : List Bar) (i : ℕ) (st : StratState) : StratState :=
  if dateAt bars i ∈ st.buyDates then st
  else
    match exitSignal (closeAt bars i) st.entryPrice (atrInd bars i)
        (crossoverInd bars i) (hh20 bars i) enable_trailing_stop with
    | some r => sellFill bars i st r
    | none => st

/-- One invocation of `MAStrategy.next` at bar `i`. -/
def nextBar (bars : List Bar) (i : ℕ) (st : StratState) : StratState :=
  if st.pos = 0 then flatStep bars i st else longStep bars i st

/-- The strategy's warm-up: backtrader first calls `next` once every declared
indicator is live; `CrossOver` over `SMA(20)` needs 21 bars, so the first
evaluated bar index (0-based) is 20. -/
def warmupIdx : ℕ := 20

def stepBar (bars : List Bar) (st : StratState) (i : ℕ) : StratState :=
  if warmupIdx ≤ i then nextBar bars i st else st

/-- State after the first `i` bars have been processed. -/
def runStates (bars : List Bar) (c0 : ℚ) : ℕ → StratState
  | 0 => initState c0
  | i + 1 => stepBar bars (runStates bars c0 i) i

/-- Broker mark-to-market value observed at the end of bar `i`:
cash plus position valued at the close. -/
def barValue (bars : List Bar) (c0 : ℚ) (i : ℕ) : ℚ :=
  (runStates bars c0 (i + 1)).cash + ((runStates bars c0 (i + 1)).pos : ℚ) * closeAt bars i

/-- The `TimeReturn` analyzer's per-bar simple return, relative to the broker
value of the previous bar (the starting cash for the first bar). -/
def timeReturn (bars : List Bar) (c0 : ℚ) (i : ℕ) : ℚ :=
  barValue bars c0 i / (if i = 0 then c0 else barValue bars c0 (i - 1)) - 1

structure BacktestResult where
  initial_cash : ℚ
  final_value : ℚ
  pnl : ℚ
  return_pct : ℚ
  trades : List TradeRec
  equity_curve : List ℚ
deriving DecidableEq, Repr

/-- `StockBacktester.run_backtest`: run the strategy over the series, then
assemble the result; the equity curve is
`(1 + pd.Series(returns).cumsum()) * initial_cash`. -/
def run_backtest (bars : List Bar) (c0 : ℚ) : BacktestResult :=
  { initial_cash := c0
    final_value := barValue bars c0 (bars.length - 1)
    pnl := barValue bars c0 (bars.length - 1) - c0
    return_pct := (barValue bars c0 (bars.length - 1) / c0 - 1) * 100
    trades := (runStates bars c0 bars.length).trades
    equity_curve :=
      (List.range bars.length).map fun i =>
        (1 + ((List.range (i + 1)).map (timeReturn bars c0)).sum) * c0 }

/-- Mark-to-market portfolio value at bar `i` (§3's invariant quantity),
stated independently of the result assembly: cash plus size times close. -/
def markToMarket (bars : List Bar) (c0 : ℚ) (i : ℕ) : ℚ :=
  (runStates bars c0 (i + 1)).cash + ((runStates bars c0 (i + 1)).pos : ℚ) * closeAt bars i

/-- One row of the instrument universe during a market sweep. `data` is the
outcome of `get_stock_data` (`none` covers both a fetch failure and an empty
frame); `raisesExc` is true when `run_backtest` (or the result handling)
raises inside the per-stock `try` block. -/
structure StockRow where
  tsCode : String
  market : String
  data : Option (List Bar)
  raisesExc : Bool

/-- Per-segment accumulators of `run_market_backtest`. -/
structure Markets where
  main : List BacktestResult
  gem : List BacktestResult
  star : List BacktestResult
deriving DecidableEq

/-- The body of the per-stock loop of `run_market_backtest`: skip when the
data is missing, skip (via `except: continue`) when the backtest raises,
otherwise classify the result by the stock's market label. -/
def sweepStep (acc : Markets) (s : StockRow) : Markets :=
  match s.data with
  | none => acc
  | some bars =>
    if s.raisesExc then acc
    else
      let r := run_backtest bars 100000
      if s.market = "主板" ∨ s.market = "中小板" then { acc with main := acc.main ++ [r] }
      else if s.market = "创业板" then { acc with gem := acc.gem ++ [r] }
      else if s.market = "科创板" then { acc with star := acc.star ++ [r] }
      else acc

/-- `StockBacktester.run_market_backtest` over a concrete universe. -/
def run_market_backtest (stocks : List StockRow) : Markets :=
  stocks.foldl sweepStep { main := [], gem := [], star := [] }

/-- Helper to build a concrete bar with a one-point range around the close. -/
def mkBar (d : ℕ) (c v : ℚ) : Bar :=
  { date := d, openPrice := c, high := c + 1, low := c - 1, close := c, volume := v }

/-- A concrete 23-bar series: flat at 10 through bar 19, a golden cross with a
volume spike at bar 20 (close 12), a holding bar at 21 (close 13), and a crash
to 1 at bar 22 that drives the fast average back below the slow one. -/
def bars23 : List Bar :=
  ((List.range 19).map fun i => mkBar i 10 100) ++
    [mkBar 19 10 110, mkBar 20 12 200, mkBar 21 13 150, mkBar 22 1 150]

/-- A concrete 3-bar series, shorter than the warm-up window. -/
def bars3 : List Bar := [mkBar 0 10 100, mkBar 1 10 100, mkBar 2 10 100]

/-- A main-board instrument whose data fetch succeeds (empty series). -/
def rowMainOk : StockRow :=
  { tsCode := "000001.SZ", market := "主板", data := some [], raisesExc := false }

/-- An instrument whose data fetch fails (`get_stock_data` returns `None`). -/
def rowFetchFail : StockRow :=
  { tsCode := "000002.SZ", market := "主板", data := none, raisesExc := false }

/-- A GEM-board instrument whose data fetch succeeds (empty series). -/
def rowGemOk : StockRow :=
  { tsCode := "300001.SZ", market := "创业板", data := some [], raisesExc := false }

/-- An instrument whose backtest raises inside the per-stock try block. -/
def rowRaises : StockRow :=
  { tsCode := "600001.SH", market := "科创板", data := some bars3, raisesExc := true }

set_option allowUnsafeReducibility true in
attribute [semireducible] Rat.add Rat.mul Rat.sub Rat.inv Rat.ofScientific

theorem pyInt_eq_floor (q : ℚ) (hq : 0 ≤ q) : pyInt q = ⌊q⌋ := by
  rw [pyInt, Rat.floor_def]
  exact Int.tdiv_eq_ediv (Rat.num_nonneg.mpr hq) (Int.ofNat_nonneg _)

theorem pyInt_nonpos (q : ℚ) (hq : q ≤ 0) : pyInt q ≤ 0 := by
  rw [pyInt]
  have hnum : q.num ≤ 0 := Rat.num_nonpos.mpr hq
  have h1 : 0 ≤ (-q.num).tdiv q.den := Int.tdiv_nonneg (by omega) (Int.ofNat_nonneg _)
  rw [Int.neg_tdiv] at h1
  omega

theorem pyInt_cast_le (q : ℚ) (hq : 0 ≤ q) : (pyInt q : ℚ) ≤ q := by
  rw [pyInt_eq_floor q hq]
  exact Int.floor_le q

/-- Core lemma about `calculate_trade_size`: whenever the computed size passes
the 100-share check the price is positive and the total cost, commission
included, fits into the available cash. -/
theorem trade_size_cost_le (cash price : ℚ) (hcash : 0 ≤ cash)
    (h : 100 ≤ calculate_trade_size cash price) :
    0 < price ∧ (calculate_trade_size cash price : ℚ) * price * (1 + commission_rate) ≤ cash := by
  have hm : (0:ℚ) ≤ margin_ratio_param := by norm_num [margin_ratio_param]
  rcases le_or_lt price 0 with hp | hp
  · exfalso
    have hq : cash * margin_ratio_param / price / 100 ≤ 0 := by
      have h1 : 0 ≤ cash * margin_ratio_param := mul_nonneg hcash hm
      have h2 : cash * margin_ratio_param / price ≤ 0 := div_nonpos_iff.mpr (Or.inl ⟨h1, hp⟩)
      exact div_nonpos_iff.mpr (Or.inr ⟨h2, by norm_num⟩)
    have := pyInt_nonpos _ hq
    unfold calculate_trade_size at h
    omega
  · refine ⟨hp, ?_⟩
    have hq : 0 ≤ cash * margin_ratio_param / price / 100 := by positivity
    have h1 : (pyInt (cash * margin_ratio_param / price / 100) : ℚ) ≤
        cash * margin_ratio_param / price / 100 := pyInt_cast_le _ hq
    have h2 : (calculate_trade_size cash price : ℚ) ≤ cash * margin_ratio_param / price := by
      unfold calculate_trade_size
      push_cast
      have := mul_le_mul_of_nonneg_right h1 (by norm_num : (0:ℚ) ≤ 100)
      calc (pyInt (cash * margin_ratio_param / price / 100) : ℚ) * 100
          ≤ cash * margin_ratio_param / price / 100 * 100 := this
        _ = cash * margin_ratio_param / price := by
            rw [div_mul_cancel₀ _ (by norm_num : (100:ℚ) ≠ 0)]
    have h3 : (calculate_trade_size cash price : ℚ) * price ≤ cash * margin_ratio_param := by
      have := mul_le_mul_of_nonneg_right h2 hp.le
      rwa [div_mul_cancel₀ _ (ne_of_gt hp)] at this
    have h4 : (calculate_trade_size cash price : ℚ) * price * (1 + commission_rate) ≤
        cash * margin_ratio_param * (1 + commission_rate) := by
      refine mul_le_mul_of_nonneg_right h3 ?_
      norm_num [commission_rate]
    calc (calculate_trade_size cash price : ℚ) * price * (1 + commission_rate)
        ≤ cash * margin_ratio_param * (1 + commission_rate) := h4
      _ ≤ cash * 1 := by
          rw [mul_assoc]
          refine mul_le_mul_of_nonneg_left ?_ hcash
          norm_num [margin_ratio_param, commission_rate]
      _ = cash := mul_one cash

/-- Counterexample to claim C5 as stated: at cash 100000 and price 1000 the
code returns 0 (only 95 shares are affordable, which rounds down to zero
whole lots of 100), not 900. -/
theorem C5_trade_size_cex :
    calculate_trade_size 100000 1000 = 0 ∧ calculate_trade_size 100000 1000 ≠ 900 := by
  constructor
  · decide
  · decide

/-- Claim C5 (amended): for cash at least 0 and positive price,
`calculate_trade_size` returns `floor(cash * 0.95 / price / 100) * 100`; with
cash 100000 and price 1000 that is 0 shares, since the 95 affordable shares
round down to zero whole lots. -/
theorem C5_trade_size :
    (∀ cash price : ℚ, 0 ≤ cash → 0 < price →
      calculate_trade_size cash price = ⌊cash * (95 / 100) / price / 100⌋ * 100) ∧
    calculate_trade_size 100000 1000 = 0 := by
  constructor
  · intro cash price hcash hprice
    unfold calculate_trade_size
    rw [pyInt_eq_floor _ (div_nonneg (div_nonneg
      (mul_nonneg hcash (by norm_num [margin_ratio_param])) hprice.le) (by norm_num))]
    rfl
  · decide

/-- Witness for C5 at the concrete scenario of the spec. -/
theorem C5_trade_size_wit :
    calculate_trade_size 100000 1000 = ⌊(100000 : ℚ) * (95 / 100) / 1000 / 100⌋ * 100 ∧
    calculate_trade_size 100000 1000 = 0 :=
  ⟨(C5_trade_size.1 100000 1000 (by norm_num) (by norm_num)), C5_trade_size.2⟩

/-- Claim C2: when LONG and off the entry date the exit rules fire in the
fixed order death cross, ATR stop-loss, ATR take-profit, trailing stop (the
latter only when enabled), first match winning; when stop-loss and take-profit
would both fire and no death cross does, the recorded reason is the stop-loss
one; and `next` on a held position follows exactly this cascade. -/
theorem C2_exit_precedence :
    (∀ price entry atr cross hh : ℚ, ∀ trail : Bool,
      (exitSignal price entry atr cross hh trail = some Reason.deathCross ↔ cross < 0) ∧
      (exitSignal price entry atr cross hh trail = some Reason.atrStopLoss ↔
        ¬cross < 0 ∧ price < entry - atr * atr_loss_multiplier) ∧
      (exitSignal price entry atr cross hh trail = some Reason.atrTakeProfit ↔
        ¬cross < 0 ∧ ¬price < entry - atr * atr_loss_multiplier ∧
          entry + atr * atr_profit_multiplier < price) ∧
      (exitSignal price entry atr cross hh trail = some Reason.trailingStop ↔
        ¬cross < 0 ∧ ¬price < entry - atr * atr_loss_multiplier ∧
          ¬entry + atr * atr_profit_multiplier < price ∧ trail = true ∧ price < hh) ∧
      (exitSignal price entry atr cross hh trail = none ↔
        ¬cross < 0 ∧ ¬price < entry - atr * atr_loss_multiplier ∧
          ¬entry + atr * atr_profit_multiplier < price ∧ ¬(trail = true ∧ price < hh))) ∧
    (∀ price entry atr cross hh : ℚ, ∀ trail : Bool,
      ¬cross < 0 → price < entry - atr * atr_loss_multiplier →
        entry + atr * atr_profit_multiplier < price →
        exitSignal price entry atr cross hh trail = some Reason.atrStopLoss) ∧
    (∀ (bars : List Bar) (i : ℕ) (st : StratState), st.pos ≠ 0 →
      dateAt bars i ∉ st.buyDates →
      nextBar bars i st =
        match exitSignal (closeAt bars i) st.entryPrice (atrInd bars i) (crossoverInd bars i)
            (hh20 bars i) enable_trailing_stop with
        | some r => sellFill bars i st r
        | none => st) := by
  refine ⟨?_, ?_, ?_⟩
  · intro price entry atr cross hh trail
    unfold exitSignal
    split_ifs <;> simp_all
  · intro price entry atr cross hh trail h1 h2 h3
    unfold exitSignal
    split_ifs <;> simp_all
  · intro bars i st hpos hdate
    unfold nextBar longStep
    rw [if_neg hpos, if_neg hdate]

/-- Witness for C2: the stop-loss wins over a simultaneously crossed
take-profit (possible for a raw negative ATR input), and the LONG branch of
`next` reduces to the cascade on a concrete held state. -/
theorem C2_exit_precedence_wit :
    exitSignal 0 0 (-10) 0 0 false = some Reason.atrStopLoss ∧
    nextBar [] 0 { cash := 0, pos := 100, entryPrice := 0, buyDates := [], trades := [] } =
      { cash := 0, pos := 100, entryPrice := 0, buyDates := [], trades := [] } := by
  constructor
  · exact C2_exit_precedence.2.1 0 0 (-10) 0 0 false (by norm_num)
      (by norm_num [atr_loss_multiplier]) (by norm_num [atr_profit_multiplier])
  · have h := C2_exit_precedence.2.2 [] 0
      { cash := 0, pos := 100, entryPrice := 0, buyDates := [], trades := [] }
      (by decide) (by decide)
    exact h.trans (by decide)

/-- Claim C9: a failed data fetch or a raising backtest removes exactly that
instrument from the sweep; the remaining instruments produce the same
segment mapping as if the failing one were absent. -/
theorem C9_sweep_isolated (xs ys : List StockRow) (s : StockRow)
    (h : s.data = none ∨ s.raisesExc = true) :
    run_market_backtest (xs ++ s :: ys) = run_market_backtest (xs ++ ys) := by
  unfold run_market_backtest
  rw [List.foldl_append, List.foldl_append, List.foldl_cons]
  have hskip : sweepStep (xs.foldl sweepStep { main := [], gem := [], star := [] }) s =
      xs.foldl sweepStep { main := [], gem := [], star := [] } := by
    rcases h with h | h
    · unfold sweepStep
      rw [h]
    · unfold sweepStep
      cases hd : s.data with
      | none => rfl
      | some bars => rw [h]; simp
  rw [hskip]

/-- Witness for C9: dropping a fetch failure from a concrete universe leaves
the mapping of the successful instruments. -/
theorem C9_sweep_isolated_wit :
    run_market_backtest [rowMainOk, rowFetchFail, rowGemOk] =
      run_market_backtest [rowMainOk, rowGemOk] :=
  C9_sweep_isolated [rowMainOk] [rowGemOk] rowFetchFail (Or.inl rfl)

/-- Claim C10: a successfully backtested instrument is appended to MAIN
exactly when its market label is 主板 or 中小板, to GEM exactly for 创业板,
to STAR exactly for 科创板, and to no segment otherwise. -/
theorem C10_segment_classify (acc : Markets) (s : StockRow) (bars : List Bar)
    (hdata : s.data = some bars) (hexc : s.raisesExc = false) :
    (sweepStep acc s).main = acc.main ++
        (if s.market = "主板" ∨ s.market = "中小板" then [run_backtest bars 100000] else []) ∧
    (sweepStep acc s).gem = acc.gem ++
        (if s.market = "创业板" then [run_backtest bars 100000] else []) ∧
    (sweepStep acc s).star = acc.star ++
        (if s.market = "科创板" then [run_backtest bars 100000] else []) := by
  unfold sweepStep
  rw [hdata, hexc]
  by_cases h1 : s.market = "主板" ∨ s.market = "中小板"
  · have h2 : ¬s.market = "创业板" := by rcases h1 with h | h <;> simp [h]
    have h3 : ¬s.market = "科创板" := by rcases h1 with h | h <;> simp [h]
    simp [h1, h2, h3]
  · by_cases h2 : s.market = "创业板"
    · simp [h1, h2]
    · by_cases h3 : s.market = "科创板"
      · simp [h1, h2, h3]
      · simp [h1, h2, h3]

theorem no_buy_append (l : List TradeRec) :
    ¬∃ tr : TradeRec, l = l ++ [tr] ∧ tr.side = Side.buy := by
  rintro ⟨tr, htr, -⟩
  have := congrArg List.length htr
  simp at this

/-- Claim C1: when FLAT at a warmed-up bar, a BUY is recorded at that bar
exactly when the golden cross, crossover-magnitude, volume-ratio,
volume-uptrend and weekly-trend conditions all hold and the computed size is
at least 100 shares; when everything but the size check holds, the bar leaves
the whole state unchanged. -/
theorem C1_flat_buy_iff (bars : List Bar) (c0 : ℚ) (i : ℕ) (hw : warmupIdx ≤ i)
    (hflat : (runStates bars c0 i).pos = 0) :
    ((∃ tr : TradeRec, (runStates bars c0 (i + 1)).trades =
        (runStates bars c0 i).trades ++ [tr] ∧ tr.side = Side.buy) ↔
      (slowMA bars i < fastMA bars i ∧ fastMA bars (i - 1) ≤ slowMA bars (i - 1)) ∧
      crossover_threshold ≤ crossoverPct (fastMA bars i) (fastMA bars (i - 1))
        (slowMA bars i) (slowMA bars (i - 1)) ∧
      volume_ratio_threshold * prevVolMean bars i < volAt bars i ∧
      (volAt bars (i - 1) < volAt bars i ∧ volAt bars (i - 2) < volAt bars (i - 1)) ∧
      fastMA bars (i - 5) < fastMA bars i ∧
      100 ≤ calculate_trade_size (runStates bars c0 i).cash (closeAt bars i)) ∧
    ((slowMA bars i < fastMA bars i ∧ fastMA bars (i - 1) ≤ slowMA bars (i - 1)) →
      crossover_threshold ≤ crossoverPct (fastMA bars i) (fastMA bars (i - 1))
        (slowMA bars i) (slowMA bars (i - 1)) →
      volume_ratio_threshold * prevVolMean bars i < volAt bars i →
      (volAt bars (i - 1) < volAt bars i ∧ volAt bars (i - 2) < volAt bars (i - 1)) →
      fastMA bars (i - 5) < fastMA bars i →
      calculate_trade_size (runStates bars c0 i).cash (closeAt bars i) < 100 →
      runStates bars c0 (i + 1) = runStates bars c0 i) := by
  have hstep : runStates bars c0 (i + 1) = flatStep bars i (runStates bars c0 i) := by
    show stepBar bars (runStates bars c0 i) i = _
    unfold stepBar nextBar
    rw [if_pos hw, if_pos hflat]
  constructor
  · rw [hstep]
    unfold flatStep
    split_ifs with h1 h2 h3
    · exact iff_of_true ⟨_, rfl, rfl⟩
        ⟨h1, h2.1, h2.2.1, h2.2.2.1, h2.2.2.2, h3⟩
    · exact iff_of_false (no_buy_append _) fun hr => h3 hr.2.2.2.2.2
    · exact iff_of_false (no_buy_append _) fun hr =>
        h2 ⟨hr.2.1, hr.2.2.1, hr.2.2.2.1, hr.2.2.2.2.1⟩
    · exact iff_of_false (no_buy_append _) fun hr => h1 hr.1
  · intro hc1 hc2 hc3 hc4 hc5 hsize
    rw [hstep]
    unfold flatStep
    split_ifs with h1 h2
    · omega
    · rfl
    · rfl

/-- Witness for C1 at bar 20 of the concrete series: the conditions hold and
a BUY trade is appended. -/
theorem C1_flat_buy_iff_wit :
    warmupIdx ≤ 20 ∧ (runStates bars23 100000 20).pos = 0 ∧
    (∃ tr : TradeRec, (runStates bars23 100000 21).trades =
      (runStates bars23 100000 20).trades ++ [tr] ∧ tr.side = Side.buy) :=
  ⟨by decide, by decide,
    (C1_flat_buy_iff bars23 100000 20 (by decide) (by decide)).1.mpr (by decide)⟩

theorem runStates_eq_init (bars : List Bar) (c0 : ℚ) :
    ∀ i, i ≤ warmupIdx → runStates bars c0 i = initState c0
  | 0, _ => rfl
  | i + 1, h => by
    have h' : i + 1 ≤ 20 := h
    show stepBar bars (runStates bars c0 i) i = initState c0
    unfold stepBar
    rw [if_neg (show ¬(warmupIdx ≤ i) by simp only [warmupIdx]; omega),
      runStates_eq_init bars c0 i (show i ≤ warmupIdx from show i ≤ 20 by omega)]

theorem barValue_of_short (bars : List Bar) (c0 : ℚ) (j : ℕ) (hj : j + 1 ≤ warmupIdx) :
    barValue bars c0 j = c0 := by
  unfold barValue
  rw [runStates_eq_init bars c0 (j + 1) hj]
  simp [initState]

/-- Claim C8: a series shorter than the warm-up window produces no trades, a
final value equal to the initial cash, and an equity curve with one value per
bar, constant at the initial cash. -/
theorem C8_short_series (bars : List Bar) (c0 : ℚ) (h : bars.length < 20) :
    (run_backtest bars c0).trades = [] ∧
    (run_backtest bars c0).final_value = c0 ∧
    (run_backtest bars c0).equity_curve = List.replicate bars.length c0 := by
  refine ⟨?_, ?_, ?_⟩
  · show (runStates bars c0 bars.length).trades = []
    rw [runStates_eq_init bars c0 bars.length (show bars.length ≤ 20 by omega)]
    rfl
  · exact barValue_of_short bars c0 (bars.length - 1)
      (show bars.length - 1 + 1 ≤ 20 by omega)
  · show (List.range bars.length).map
        (fun i => (1 + ((List.range (i + 1)).map (timeReturn bars c0)).sum) * c0) =
      List.replicate bars.length c0
    rw [List.eq_replicate_iff]
    refine ⟨by simp, ?_⟩
    intro b hb
    obtain ⟨i, hi, rfl⟩ := List.mem_map.mp hb
    have hilt : i < bars.length := List.mem_range.mp hi
    rcases eq_or_ne c0 0 with h0 | h0
    · rw [h0, mul_zero]
    · have hr : ∀ j, j < bars.length → timeReturn bars c0 j = 0 := by
        intro j hj
        unfold timeReturn
        rcases Nat.eq_zero_or_pos j with hj0 | hj0
        · rw [hj0, if_pos rfl,
            barValue_of_short bars c0 0 (show 0 + 1 ≤ 20 by omega), div_self h0]
          ring
        · rw [if_neg (by omega),
            barValue_of_short bars c0 j (show j + 1 ≤ 20 by omega),
            barValue_of_short bars c0 (j - 1) (show j - 1 + 1 ≤ 20 by omega), div_self h0]
          ring
      have hsum : ((List.range (i + 1)).map (timeReturn bars c0)).sum = 0 := by
        refine List.sum_eq_zero ?_
        intro x hx
        obtain ⟨j, hj, rfl⟩ := List.mem_map.mp hx
        exact hr j (by have := List.mem_range.mp hj; omega)
      rw [hsum]
      ring

/-- Witness for C8 on a concrete three-bar series. -/
theorem C8_short_series_wit :
    (run_backtest bars3 100000).trades = [] ∧
    (run_backtest bars3 100000).final_value = 100000 ∧
    (run_backtest bars3 100000).equity_curve = List.replicate bars3.length 100000 :=
  C8_short_series bars3 100000 (by decide)

theorem no_self_append (l : List TradeRec) (tr : TradeRec) (h : l = l ++ [tr]) : False := by
  have := congrArg List.length h
  simp at this

theorem closeAt_nonneg (bars : List Bar) (hc : ∀ b ∈ bars, 0 ≤ b.close) (i : ℕ) :
    0 ≤ closeAt bars i := by
  unfold closeAt
  rw [List.getD_eq_getElem?_getD]
  cases h : bars[i]? with
  | none => exact le_of_eq (by rfl)
  | some b => simpa using hc b (List.getElem?_mem h)

/-- Run invariant: cash never goes negative, the position is a non-negative
multiple of one lot of 100 shares. -/
theorem cash_pos_invariant (bars : List Bar) (c0 : ℚ) (h0 : 0 ≤ c0)
    (hc : ∀ b ∈ bars, 0 ≤ b.close) :
    ∀ i, 0 ≤ (runStates bars c0 i).cash ∧ 0 ≤ (runStates bars c0 i).pos ∧
      (100 : ℤ) ∣ (runStates bars c0 i).pos
  | 0 => ⟨h0, le_refl 0, dvd_zero 100⟩
  | i + 1 => by
    obtain ⟨ihc, ihp, ihd⟩ := cash_pos_invariant bars c0 h0 hc i
    show 0 ≤ (stepBar bars (runStates bars c0 i) i).cash ∧
      0 ≤ (stepBar bars (runStates bars c0 i) i).pos ∧
      (100 : ℤ) ∣ (stepBar bars (runStates bars c0 i) i).pos
    unfold stepBar
    split_ifs with hw
    · unfold nextBar
      split_ifs with hpos
      · unfold flatStep
        split_ifs with h1 h2 h3
        · refine ⟨?_, show (0:ℤ) ≤ calculate_trade_size (runStates bars c0 i).cash
              (closeAt bars i) by omega, dvd_mul_left 100 _⟩
          have hcost := (trade_size_cost_le (runStates bars c0 i).cash (closeAt bars i)
            ihc h3).2
          simpa using sub_nonneg.mpr hcost
        · exact ⟨ihc, ihp, ihd⟩
        · exact ⟨ihc, ihp, ihd⟩
        · exact ⟨ihc, ihp, ihd⟩
      · unfold longStep
        split_ifs with hdate
        · exact ⟨ihc, ihp, ihd⟩
        · cases hex : exitSignal (closeAt bars i) (runStates bars c0 i).entryPrice
            (atrInd bars i) (crossoverInd bars i) (hh20 bars i) enable_trailing_stop with
          | none => simp only [hex]; exact ⟨ihc, ihp, ihd⟩
          | some r =>
            simp only [hex]
            refine ⟨?_, le_refl 0, dvd_zero 100⟩
            refine add_nonneg ihc (mul_nonneg (mul_nonneg ?_ (closeAt_nonneg bars hc i)) ?_)
            · exact_mod_cast ihp
            · norm_num [commission_rate]
    · exact ⟨ihc, ihp, ihd⟩

/-- Claim C6: the position is always a non-negative multiple of 100 shares,
and every BUY fill costs at most the cash available just before it,
commission included. -/
theorem C6_lot_and_cash (bars : List Bar) (c0 : ℚ) (h0 : 0 ≤ c0)
    (hc : ∀ b ∈ bars, 0 ≤ b.close) (i : ℕ) :
    0 ≤ (runStates bars c0 i).pos ∧ (100 : ℤ) ∣ (runStates bars c0 i).pos ∧
    ∀ tr : TradeRec,
      (runStates bars c0 (i + 1)).trades = (runStates bars c0 i).trades ++ [tr] →
      tr.side = Side.buy →
      (tr.size : ℚ) * tr.price * (1 + commission_rate) ≤ (runStates bars c0 i).cash := by
  obtain ⟨ihc, ihp, ihd⟩ := cash_pos_invariant bars c0 h0 hc i
  refine ⟨ihp, ihd, ?_⟩
  intro tr htr hside
  have hstep : runStates bars c0 (i + 1) = stepBar bars (runStates bars c0 i) i := rfl
  rw [hstep] at htr
  unfold stepBar at htr
  split_ifs at htr with hw
  · unfold nextBar at htr
    split_ifs at htr with hpos
    · unfold flatStep at htr
      split_ifs at htr with h1 h2 h3
      · have heq := List.append_cancel_left htr
        simp only [List.cons.injEq, and_true] at heq
        subst heq
        exact (trade_size_cost_le _ _ ihc h3).2
      · exact (no_self_append _ _ htr).elim
      · exact (no_self_append _ _ htr).elim
      · exact (no_self_append _ _ htr).elim
    · unfold longStep at htr
      split_ifs at htr with hdate
      · exact (no_self_append _ _ htr).elim
      · cases hex : exitSignal (closeAt bars i) (runStates bars c0 i).entryPrice
          (atrInd bars i) (crossoverInd bars i) (hh20 bars i) enable_trailing_stop with
        | none => rw [hex] at htr; exact (no_self_append _ _ htr).elim
        | some r =>
          rw [hex] at htr
          have heq := List.append_cancel_left htr
          simp only [List.cons.injEq, and_true] at heq
          subst heq
          simp at hside
  · exact (no_self_append _ _ htr).elim

set_option maxRecDepth 40000 in
/-- Witness for C6 at the concrete BUY fill of bar 20: 7900 shares at price
12 cost at most the 100000 of cash held before the fill. -/
theorem C6_lot_and_cash_wit :
    (7900 : ℚ) * 12 * (1 + commission_rate) ≤ (runStates bars23 100000 20).cash := by
  have h := (C6_lot_and_cash bars23 100000 (by norm_num) (by decide) 20).2.2
    { date := 20, side := Side.buy, price := 12, size := 7900, reason := Reason.goldenCross }
    (by decide) rfl
  exact_mod_cast h

set_option maxRecDepth 40000 in
/-- Counterexample to claim C7 as stated: on the concrete 23-bar series the
last equity-curve value does not equal the final portfolio value, because the
curve is built from a cumulative sum of per-bar simple returns rather than
from the mark-to-market value. -/
theorem C7_equity_cex :
    (run_backtest bars23 100000).equity_curve.length = 23 ∧
    (run_backtest bars23 100000).equity_curve.getD 22 0 ≠
      (run_backtest bars23 100000).final_value := by
  constructor
  · decide
  · decide

/-- Claim C7 (amended): the equity curve has one value per bar, and the value
at bar `i` is `(1 + sum of the first i+1 per-bar simple returns of the
mark-to-market value) * initial_cash`; this generally differs from the
mark-to-market value itself and from `final_value` at the last bar. -/
theorem C7_equity_curve (bars : List Bar) (c0 : ℚ) :
    (run_backtest bars c0).equity_curve.length = bars.length ∧
    ∀ i, i < bars.length →
      (run_backtest bars c0).equity_curve.getD i 0 =
        (1 + ((List.range (i + 1)).map fun j =>
          markToMarket bars c0 j /
            (if j = 0 then c0 else markToMarket bars c0 (j - 1)) - 1).sum) * c0 := by
  constructor
  · show ((List.range bars.length).map _).length = bars.length
    simp
  · intro i hi
    show ((List.range bars.length).map
        (fun i => (1 + ((List.range (i + 1)).map (timeReturn bars c0)).sum) * c0)).getD i 0 = _
    rw [List.getD_eq_getElem _ _ (by simpa using hi)]
    rw [List.getElem_map, List.getElem_range]
    rfl

theorem nzd_pos_of_diff_pos (bars : List Bar) (i : ℕ) (h : 0 < maDiff bars i) :
    0 < nzd bars i := by
  cases i with
  | zero => exact h
  | succ n =>
    unfold nzd
    rw [if_neg (ne_of_gt h)]
    exact h

theorem nzd_pos_of_nonneg (bars : List Bar) (n : ℕ) (hprev : 0 < nzd bars n)
    (hd : 0 ≤ maDiff bars (n + 1)) : 0 < nzd bars (n + 1) := by
  unfold nzd
  split_ifs with h
  · exact hprev
  · exact lt_of_le_of_ne hd (Ne.symm h)

theorem inv_carry (bars : List Bar) (i : ℕ) (st : StratState)
    (hb : ∀ d ∈ st.buyDates, ∃ j, j < i ∧ d = dateAt bars j)
    (ht : ∀ tr ∈ st.trades, ∃ j, j < i ∧ tr.date = dateAt bars j)
    (hp : List.Pairwise (· < ·) (st.trades.map TradeRec.date))
    (hn : st.pos ≠ 0 → 0 < nzd bars (i + 1 - 1)) :
    (∀ d ∈ st.buyDates, ∃ j, j < i + 1 ∧ d = dateAt bars j) ∧
    (st.pos ≠ 0 → 0 < nzd bars (i + 1 - 1)) ∧
    (∀ tr ∈ st.trades, ∃ j, j < i + 1 ∧ tr.date = dateAt bars j) ∧
    List.Pairwise (· < ·) (st.trades.map TradeRec.date) := by
  refine ⟨?_, hn, ?_, hp⟩
  · intro d hdm
    obtain ⟨j, hj, he⟩ := hb d hdm
    exact ⟨j, by omega, he⟩
  · intro tr htm
    obtain ⟨j, hj, he⟩ := ht tr htm
    exact ⟨j, by omega, he⟩

theorem append_pairwise_dates (bars : List Bar) (i : ℕ) (hi : i < bars.length)
    (hd : ∀ k, k < bars.length → ∀ j, j < k → dateAt bars j < dateAt bars k)
    (l : List TradeRec)
    (ht : ∀ tr ∈ l, ∃ j, j < i ∧ tr.date = dateAt bars j)
    (hp : List.Pairwise (· < ·) (l.map TradeRec.date)) (tr : TradeRec)
    (htr : tr.date = dateAt bars i) :
    List.Pairwise (· < ·) ((l ++ [tr]).map TradeRec.date) := by
  rw [List.map_append, List.pairwise_append]
  refine ⟨hp, by simp, ?_⟩
  intro a ha b hb
  simp only [List.map_cons, List.map_nil, List.mem_singleton] at hb
  subst hb
  obtain ⟨tr', htr', rfl⟩ := List.mem_map.mp ha
  obtain ⟨j, hj, he⟩ := ht tr' htr'
  rw [he, htr]
  exact hd i hi j hj

/-- Ledger invariant over a date-sorted series: every recorded buy date and
trade date is the date of an earlier bar, trade dates strictly increase, and
while a position is held the last non-zero fast-slow difference before the
current bar is positive (so the next hard cross is a down cross). -/
theorem ledger_invariant (bars : List Bar) (c0 : ℚ)
    (hd : ∀ k, k < bars.length → ∀ j, j < k → dateAt bars j < dateAt bars k) :
    ∀ i, i ≤ bars.length →
      (∀ d ∈ (runStates bars c0 i).buyDates, ∃ j, j < i ∧ d = dateAt bars j) ∧
      ((runStates bars c0 i).pos ≠ 0 → 0 < nzd bars (i - 1)) ∧
      (∀ tr ∈ (runStates bars c0 i).trades, ∃ j, j < i ∧ tr.date = dateAt bars j) ∧
      List.Pairwise (· < ·) ((runStates bars c0 i).trades.map TradeRec.date)
  | 0, _ =>
    ⟨fun d hdm => absurd hdm (List.not_mem_nil d), fun hp => absurd rfl hp,
      fun tr htm => absurd htm (List.not_mem_nil tr), List.Pairwise.nil⟩
  | i + 1, h => by
    have hi : i < bars.length := h
    obtain ⟨ihb, ihn, iht, ihp⟩ := ledger_invariant bars c0 hd i (le_of_lt hi)
    have hstep : runStates bars c0 (i + 1) = stepBar bars (runStates bars c0 i) i := rfl
    rw [hstep]
    unfold stepBar
    by_cases hw : warmupIdx ≤ i
    · rw [if_pos hw]
      unfold nextBar
      by_cases hpos : (runStates bars c0 i).pos = 0
      · rw [if_pos hpos]
        unfold flatStep
        split_ifs with h1 h2 h3
        · refine ⟨?_, ?_, ?_, ?_⟩
          · intro d hdm
            rcases List.mem_cons.mp hdm with he | hdm'
            · exact ⟨i, by omega, he⟩
            · obtain ⟨j, hj, he⟩ := ihb d hdm'
              exact ⟨j, by omega, he⟩
          · intro _
            exact nzd_pos_of_diff_pos bars i (sub_pos.mpr h1.1)
          · intro tr htm
            rcases List.mem_append.mp htm with hold | hnew
            · obtain ⟨j, hj, he⟩ := iht tr hold
              exact ⟨j, by omega, he⟩
            · rw [List.mem_singleton] at hnew
              subst hnew
              exact ⟨i, by omega, rfl⟩
          · exact append_pairwise_dates bars i hi hd _ iht ihp _ rfl
        · exact inv_carry bars i _ ihb iht ihp (fun hp => absurd hpos hp)
        · exact inv_carry bars i _ ihb iht ihp (fun hp => absurd hpos hp)
        · exact inv_carry bars i _ ihb iht ihp (fun hp => absurd hpos hp)
      · rw [if_neg hpos]
        unfold longStep
        have hskip : dateAt bars i ∉ (runStates bars c0 i).buyDates := by
          intro hmem
          obtain ⟨j, hj, he⟩ := ihb _ hmem
          have := hd i hi j hj
          omega
        rw [if_neg hskip]
        cases hex : exitSignal (closeAt bars i) (runStates bars c0 i).entryPrice
            (atrInd bars i) (crossoverInd bars i) (hh20 bars i) enable_trailing_stop with
        | some r =>
          simp only [hex]
          unfold sellFill
          refine ⟨?_, fun hp => absurd rfl hp, ?_, ?_⟩
          · intro d hdm
            obtain ⟨j, hj, he⟩ := ihb d hdm
            exact ⟨j, by omega, he⟩
          · intro tr htm
            rcases List.mem_append.mp htm with hold | hnew
            · obtain ⟨j, hj, he⟩ := iht tr hold
              exact ⟨j, by omega, he⟩
            · rw [List.mem_singleton] at hnew
              subst hnew
              exact ⟨i, by omega, rfl⟩
          · exact append_pairwise_dates bars i hi hd _ iht ihp _ rfl
        | none =>
          simp only [hex]
          refine inv_carry bars i _ ihb iht ihp ?_
          intro hp
          have hn := ihn hp
          have hcross : ¬crossoverInd bars i < 0 := by
            intro hc
            unfold exitSignal at hex
            rw [if_pos hc] at hex
            exact Option.noConfusion hex
          have hdiff : 0 ≤ maDiff bars i := by
            by_contra hneg
            push_neg at hneg
            apply hcross
            unfold crossoverInd
            rw [if_neg (fun hcon => absurd hcon.2 (lt_asymm hneg)), if_pos ⟨hn, hneg⟩]
            norm_num
          cases i with
          | zero => exact absurd hw (by simp [warmupIdx])
          | succ n => exact nzd_pos_of_nonneg bars n hn hdiff
    · rw [if_neg hw]
      refine inv_carry bars i _ ihb iht ihp ?_
      intro hp
      rw [runStates_eq_init bars c0 i
        (show i ≤ warmupIdx from show i ≤ 20 by simp [warmupIdx] at hw; omega)] at hp
      exact absurd rfl hp

/-- Claim C3: while LONG, off the entry date, any warmed-up bar whose fast
average sits strictly below the slow average triggers the death-cross SELL —
not only the bar of the cross-down itself.  The reason is an invariant: the
last non-zero fast-slow difference before such a bar is positive, so the
`CrossOver` indicator reads −1 there. -/
theorem C3_death_cross_exit (bars : List Bar) (c0 : ℚ)
    (hd : ∀ k, k < bars.length → ∀ j, j < k → dateAt bars j < dateAt bars k)
    (i : ℕ) (hi : i < bars.length) (hw : warmupIdx ≤ i)
    (hpos : (runStates bars c0 i).pos ≠ 0)
    (hdate : dateAt bars i ∉ (runStates bars c0 i).buyDates)
    (hma : fastMA bars i < slowMA bars i) :
    runStates bars c0 (i + 1) = sellFill bars i (runStates bars c0 i) Reason.deathCross := by
  have hn := (ledger_invariant bars c0 hd i (le_of_lt hi)).2.1 hpos
  have hdiff : maDiff bars i < 0 := sub_neg.mpr hma
  have hcross : crossoverInd bars i < 0 := by
    unfold crossoverInd
    rw [if_neg (fun hcon => absurd hcon.2 (lt_asymm hdiff)), if_pos ⟨hn, hdiff⟩]
    norm_num
  have hex : exitSignal (closeAt bars i) (runStates bars c0 i).entryPrice (atrInd bars i)
      (crossoverInd bars i) (hh20 bars i) enable_trailing_stop =
        some Reason.deathCross := by
    unfold exitSignal
    rw [if_pos hcross]
  show stepBar bars (runStates bars c0 i) i = _
  unfold stepBar nextBar
  rw [if_pos hw, if_neg hpos]
  unfold longStep
  rw [if_neg hdate, hex]

set_option maxRecDepth 40000 in
/-- Witness for C3 at bar 22 of the concrete series: the cross-down happened
relative to bar 21, fast sits below slow, and the death-cross SELL fires. -/
theorem C3_death_cross_exit_wit :
    runStates bars23 100000 23 =
      sellFill bars23 22 (runStates bars23 100000 22) Reason.deathCross :=
  C3_death_cross_exit bars23 100000 (by decide) 22 (by decide) (by decide) (by decide)
    (by decide) (by decide)

/-- Claim C4: in the recorded ledger of a date-sorted series, a SELL
immediately following a BUY carries a strictly later date (T+1: no exit is
evaluated on the entry date). -/
theorem C4_sell_strictly_later (bars : List Bar) (c0 : ℚ)
    (hd : ∀ k, k < bars.length → ∀ j, j < k → dateAt bars j < dateAt bars k)
    (k : ℕ) (hk : k + 1 < (run_backtest bars c0).trades.length)
    (hbuy : ((run_backtest bars c0).trades.get ⟨k, by omega⟩).side = Side.buy)
    (hsell : ((run_backtest bars c0).trades.get ⟨k + 1, hk⟩).side = Side.sell) :
    ((run_backtest bars c0).trades.get ⟨k, by omega⟩).date <
      ((run_backtest bars c0).trades.get ⟨k + 1, hk⟩).date := by
  have hpair := (ledger_invariant bars c0 hd bars.length (le_refl _)).2.2.2
  have hlen : ((runStates bars c0 bars.length).trades.map TradeRec.date).length =
      (run_backtest bars c0).trades.length := by
    simp [run_backtest]
  have h2 := List.pairwise_iff_get.mp hpair
    ⟨k, by omega⟩ ⟨k + 1, by omega⟩ (by exact Nat.lt_succ_self k)
  simpa [List.getElem_map] using h2

set_option maxRecDepth 40000 in
/-- Witness for C4 on the concrete series: the BUY of bar 20 is followed by
the SELL of bar 22, two days later. -/
theorem C4_sell_strictly_later_wit :
    ((run_backtest bars23 100000).trades.get ⟨0, by decide⟩).date <
      ((run_backtest bars23 100000).trades.get ⟨1, by decide⟩).date :=
  C4_sell_strictly_later bars23 100000 (by decide) 0 (by decide) (by decide) (by decide)

set_option maxRecDepth 40000 in
/-- Witness for C7 (amended) at the first bar of the concrete series. -/
theorem C7_equity_curve_wit :
    (run_backtest bars23 100000).equity_curve.length = bars23.length ∧
    (run_backtest bars23 100000).equity_curve.getD 0 0 =
      (1 + ((List.range (0 + 1)).map fun j =>
        markToMarket bars23 100000 j /
          (if j = 0 then 100000 else markToMarket bars23 100000 (j - 1)) - 1).sum) * 100000 :=
  ⟨(C7_equity_curve bars23 100000).1, (C7_equity_curve bars23 100000).2 0 (by decide)⟩

/-- Witness for C10 on a concrete main-board instrument. -/
theorem C10_segment_classify_wit :
    (sweepStep { main := [], gem := [], star := [] } rowMainOk).main =
        [] ++ (if rowMainOk.market = "主板" ∨ rowMainOk.market = "中小板"
          then [run_backtest [] 100000] else []) ∧
    (sweepStep { main := [], gem := [], star := [] } rowMainOk).gem =
        [] ++ (if rowMainOk.market = "创业板" then [run_backtest [] 100000] else []) ∧
    (sweepStep { main := [], gem := [], star := [] } rowMainOk).star =
        [] ++ (if rowMainOk.market = "科创板" then [run_backtest [] 100000] else []) :=
  C10_segment_classify { main := [], gem := [], star := [] } rowMainOk [] rfl rfl

end Foundit
